import Mathlib

/-!
# Verification of the seml hydra bridge

A shallow embedding of the configuration-resolution, override-translation,
queueing and lifecycle-observation code of the `seml` hydra bridge
(`seml/hydra.py`, `seml/hydra/config.py`, `seml/hydra/utils.py`,
`seml/queuing.py`), together with proofs about it.

Python strings are modelled as lists of characters (`Key := List Char`),
Python dicts as insertion-ordered association structures (`Config`), and
Python values as a small scalar/mapping value type (`Value`).
-/

set_option maxHeartbeats 1000000

deriving instance DecidableEq for Except

namespace Seml

/-- A Python string (used for dict keys, override strings, …), modelled as
its list of characters. -/
abbrev Key := List Char

/-- Scalar (non-mapping) configuration values.  Non-mapping values are leaves
of the configuration tree: `flatten` does not descend into them. -/
inductive Leaf where
  | lInt : Int → Leaf
  | lStr : Key → Leaf
  | lBool : Bool → Leaf
  | lNull : Leaf
deriving DecidableEq, Repr

mutual
/-- A configuration value: either a leaf scalar or a nested mapping. -/
inductive Value where
  | leaf : Leaf → Value
  | vMap : Config → Value

/-- A nested configuration: an insertion-ordered mapping from keys to values,
modelling a Python `dict`. -/
inductive Config where
  | nil : Config
  | cons : Key → Value → Config → Config
end

deriving instance DecidableEq for Value
deriving instance DecidableEq for Config
deriving instance Repr for Value
deriving instance Repr for Config

instance : Inhabited Value := ⟨.leaf .lNull⟩
instance : Inhabited Config := ⟨.nil⟩

namespace Config

/-- Induction principle for `Config` alone (the mutual recursor has two
motives, which the `induction` tactic does not accept). -/
@[elab_as_elim]
def inductionOn {P : Config → Prop} (c : Config) (nil : P .nil)
    (cons : ∀ k v r, P r → P (.cons k v r)) : P c :=
  match c with
  | .nil => nil
  | .cons k v r => cons k v r (inductionOn r nil cons)

/-- Concatenation of two configurations (entry lists). -/
def append : Config → Config → Config
  | .nil, d => d
  | .cons k v r, d => .cons k v (append r d)

instance : Append Config := ⟨Config.append⟩

@[simp] theorem nil_append (d : Config) : Config.nil ++ d = d := rfl

@[simp] theorem cons_append (k : Key) (v : Value) (r d : Config) :
    Config.cons k v r ++ d = Config.cons k v (r ++ d) := rfl

@[simp] theorem append_nil (c : Config) : c ++ Config.nil = c := by
  induction c using Seml.Config.inductionOn with
  | nil => rfl
  | cons k v r ih => show Config.cons k v (r ++ Config.nil) = _; rw [ih]

theorem append_assoc (a b c : Config) : a ++ b ++ c = a ++ (b ++ c) := by
  induction a using Seml.Config.inductionOn with
  | nil => rfl
  | cons k v r ih => show Config.cons k v (r ++ b ++ c) = _; rw [ih]; rfl

/-- The list of top-level keys of a configuration. -/
def keys : Config → List Key
  | .nil => []
  | .cons k _ r => k :: keys r

@[simp] theorem keys_nil : Config.nil.keys = [] := rfl
@[simp] theorem keys_cons (k : Key) (v : Value) (r : Config) :
    (Config.cons k v r).keys = k :: r.keys := rfl

@[simp] theorem keys_append (a b : Config) : (a ++ b).keys = a.keys ++ b.keys := by
  induction a using Seml.Config.inductionOn with
  | nil => rfl
  | cons k v r ih => simp [ih]

/-- Build a configuration from a list of entries. -/
def ofList : List (Key × Value) → Config
  | [] => .nil
  | (k, v) :: rest => .cons k v (ofList rest)

end Config

/-- Look up a top-level key in a configuration (Python `d[k]` / `k in d`). -/
def lookupC (k : Key) : Config → Option Value
  | .nil => none
  | .cons k' v r => if k' = k then some v else lookupC k r

/-- Replace the value stored under an existing top-level key, keeping the
entry's position (Python `d[k] = v` on a present key). -/
def replaceC (k : Key) (v : Value) : Config → Config
  | .nil => .nil
  | .cons k' v' r => if k' = k then .cons k' v r else .cons k' v' (replaceC k v r)

@[simp] theorem lookupC_nil (k : Key) : lookupC k .nil = none := rfl

theorem lookupC_append_left {k : Key} {a : Config} (b : Config)
    (h : lookupC k a = none) : lookupC k (a ++ b) = lookupC k b := by
  induction a using Seml.Config.inductionOn with
  | nil => rfl
  | cons k' v r ih =>
    by_cases hk : k' = k
    · simp [lookupC, hk] at h
    · simp only [Config.cons_append, lookupC, if_neg hk] at h ⊢
      exact ih h

theorem lookupC_not_mem {k : Key} {c : Config} (h : k ∉ c.keys) :
    lookupC k c = none := by
  induction c using Seml.Config.inductionOn with
  | nil => rfl
  | cons k' v r ih =>
    simp only [Config.keys_cons, List.mem_cons] at h
    push_neg at h
    simp only [lookupC, if_neg (Ne.symm h.1)]
    exact ih h.2

theorem replaceC_append_right {k : Key} {a : Config} (h : k ∉ a.keys)
    (b : Config) (v : Value) :
    replaceC k v (a ++ b) = a ++ replaceC k v b := by
  induction a using Seml.Config.inductionOn with
  | nil => rfl
  | cons k' v' r ih =>
    simp only [Config.keys_cons, List.mem_cons] at h
    push_neg at h
    show replaceC k v (Config.cons k' v' (r ++ b)) = _
    simp only [replaceC, if_neg (Ne.symm h.1)]
    rw [ih h.2]; rfl

@[simp] theorem replaceC_cons_self (k : Key) (v v' : Value) (r : Config) :
    replaceC k v (.cons k v' r) = .cons k v r := by
  simp [replaceC]

/-! ## Splitting and joining dotted key paths

`splitOnChar` models Python `str.split(sep)` for a one-character separator,
`joinSegs` models `sep.join(...)`. -/

/-- Python `key.split(sep)` for a single-character separator.  Always returns
a nonempty list; a string without the separator is returned whole. -/
def splitOnChar (sep : Char) : Key → List Key
  | [] => [[]]
  | x :: xs =>
    if x = sep then [] :: splitOnChar sep xs
    else
      match splitOnChar sep xs with
      | [] => [[x]]
      | y :: ys => (x :: y) :: ys

/-- Python `sep.join(segments)` for a single-character separator. -/
def joinSegs (sep : Char) : List Key → Key
  | [] => []
  | [k] => k
  | k :: k' :: ks => k ++ sep :: joinSegs sep (k' :: ks)

theorem splitOnChar_ne_nil (sep : Char) (s : Key) : splitOnChar sep s ≠ [] := by
  cases s with
  | nil => simp [splitOnChar]
  | cons x xs =>
    simp only [splitOnChar]
    by_cases hx : x = sep
    · simp [hx]
    · simp only [if_neg hx]
      cases splitOnChar sep xs <;> simp

theorem splitOnChar_of_not_mem {sep : Char} {k : Key} (h : sep ∉ k) :
    splitOnChar sep k = [k] := by
  induction k with
  | nil => rfl
  | cons x xs ih =>
    simp only [List.mem_cons] at h
    push_neg at h
    simp only [splitOnChar, if_neg (Ne.symm h.1), ih h.2]

theorem splitOnChar_append_sep {sep : Char} {k : Key} (h : sep ∉ k) (r : Key) :
    splitOnChar sep (k ++ sep :: r) = k :: splitOnChar sep r := by
  induction k with
  | nil => simp [splitOnChar]
  | cons x xs ih =>
    simp only [List.mem_cons] at h
    push_neg at h
    have key : ∀ t : Key, splitOnChar sep t = xs :: splitOnChar sep r →
        splitOnChar sep (x :: t) = (x :: xs) :: splitOnChar sep r := by
      intro t ht
      simp only [splitOnChar, if_neg (Ne.symm h.1), ht]
    exact key (xs ++ sep :: r) (ih h.2)

theorem joinSegs_splitOnChar (sep : Char) (s : Key) :
    joinSegs sep (splitOnChar sep s) = s := by
  induction s with
  | nil => rfl
  | cons x xs ih =>
    simp only [splitOnChar]
    by_cases hx : x = sep
    · simp only [if_pos hx]
      have hne := splitOnChar_ne_nil sep xs
      cases hsp : splitOnChar sep xs with
      | nil => exact absurd hsp hne
      | cons y ys =>
        rw [hsp] at ih
        simp only [joinSegs, List.nil_append]
        rw [ih, hx]
    · simp only [if_neg hx]
      have hne := splitOnChar_ne_nil sep xs
      cases hsp : splitOnChar sep xs with
      | nil => exact absurd hsp hne
      | cons y ys =>
        rw [hsp] at ih
        show joinSegs sep ((x :: y) :: ys) = x :: xs
        cases ys with
        | nil =>
          simp only [joinSegs] at ih ⊢
          rw [ih]
        | cons z zs =>
          simp only [joinSegs, List.cons_append] at ih ⊢
          rw [ih]

/-! ## Flattening and unflattening

`seml.utils.flatten` / `seml.utils.unflatten` are imported by
`seml/hydra/config.py` but their defining module is not part of the
sources at hand, so they are modelled from the spec. -/

/-- The flat form of a configuration: a single-level mapping with dotted keys,
modelling the Python dict returned by `flatten`. -/
abbrev Flat := List (Key × Value)

mutual
/-- Modelled from the spec: `seml.utils.flatten` (module missing from the
sources).  "`flatten(nested) -> flat` recursively descends mappings, joining
keys with a separator (default `.`); non-mapping values (including sequences)
are leaves and not descended into."  `flattenV` flattens a single entry. -/
def flattenV (k : Key) : Value → Flat
  | .leaf l => [(k, .leaf l)]
  | .vMap m => (flattenC m).map (fun p => (k ++ '.' :: p.1, p.2))

/-- Modelled from the spec: `seml.utils.flatten` (module missing from the
sources), see `flattenV`. -/
def flattenC : Config → Flat
  | .nil => []
  | .cons k v r => flattenV k v ++ flattenC r
end

/-- Modelled from the spec: the per-key insertion step of
`seml.utils.unflatten` (module missing from the sources).  "`unflatten(flat)
-> nested` splits each key on the separator and builds/merges nested
mappings, raising a configuration error if two flat keys would require the
same path to be simultaneously a leaf and a container." -/
def insertPath : Config → List Key → Value → Except String Config
  | _, [], _ => .error "empty key path"
  | c, [p], v =>
    match lookupC p c with
    | none => .ok (c ++ .cons p v .nil)
    | some (.vMap _) => .error "path is both leaf and container"
    | some _ => .ok (replaceC p v c)
  | c, p :: q :: ps, v =>
    match lookupC p c with
    | none =>
      match insertPath .nil (q :: ps) v with
      | .ok sub => .ok (c ++ .cons p (.vMap sub) .nil)
      | .error e => .error e
    | some (.vMap m) =>
      match insertPath m (q :: ps) v with
      | .ok sub => .ok (replaceC p (.vMap sub) c)
      | .error e => .error e
    | some _ => .error "path is both leaf and container"

/-- The in-order insertion loop of `unflatten`, starting from an arbitrary
partially-built configuration `a`. -/
def foldInsert (a : Config) : Flat → Except String Config
  | [] => .ok a
  | kv :: rest =>
    match insertPath a (splitOnChar '.' kv.1) kv.2 with
    | .ok c => foldInsert c rest
    | .error e => .error e

/-- Modelled from the spec: `seml.utils.unflatten` (module missing from the
sources), folding `insertPath` over the flat entries in order starting from
the empty mapping. -/
def unflattenFlat (f : Flat) : Except String Config :=
  foldInsert .nil f

mutual
/-- No key of the configuration, at any nesting depth, contains the path
separator `.` (the hypothesis of the flatten/unflatten round-trip claim). -/
def noSepConfig : Config → Bool
  | .nil => true
  | .cons k v r => !(decide ('.' ∈ k)) && noSepValue v && noSepConfig r

/-- `noSepConfig` on the mapping under a value; leaves are unconstrained. -/
def noSepValue : Value → Bool
  | .leaf _ => true
  | .vMap m => noSepConfig m
end

mutual
/-- The configuration is a faithful image of a Python dict tree: at every
nesting level the keys are pairwise distinct. -/
def dictConfig : Config → Bool
  | .nil => true
  | .cons k v r => !(decide (k ∈ r.keys)) && dictValue v && dictConfig r

/-- `dictConfig` on the mapping under a value; leaves are unconstrained. -/
def dictValue : Value → Bool
  | .leaf _ => true
  | .vMap m => dictConfig m
end

mutual
/-- No value of the configuration, at any nesting depth, is an empty
mapping.  (`flatten` erases empty mappings, so they cannot round-trip.) -/
def noEmptyConfig : Config → Bool
  | .nil => true
  | .cons _ v r => noEmptyValue v && noEmptyConfig r

/-- `noEmptyConfig` on the mapping under a value, which must be nonempty. -/
def noEmptyValue : Value → Bool
  | .leaf _ => true
  | .vMap m => !(decide (m = .nil)) && noEmptyConfig m
end

/-! ## The flatten/unflatten round trip -/

theorem foldInsert_append (a : Config) (f g : Flat) :
    foldInsert a (f ++ g) =
      match foldInsert a f with
      | .ok c => foldInsert c g
      | .error e => .error e := by
  induction f generalizing a with
  | nil => rfl
  | cons kv rest ih =>
    simp only [List.cons_append, foldInsert]
    cases insertPath a (splitOnChar '.' kv.1) kv.2 with
    | ok c => exact ih c
    | error e => rfl

/-- Inserting along a path `k :: rest` (with `rest` nonempty) when `k` is not
yet present creates a fresh singleton submapping at the end. -/
theorem insertPath_fresh {k : Key} {a : Config} (h : lookupC k a = none)
    {rest : List Key} (hrest : rest ≠ []) (v : Value) :
    insertPath a (k :: rest) v =
      match insertPath .nil rest v with
      | .ok sub => .ok (a ++ .cons k (.vMap sub) .nil)
      | .error e => .error e := by
  cases rest with
  | nil => exact absurd rfl hrest
  | cons q ps => simp only [insertPath, h]

/-- Inserting along a path `k :: rest` (with `rest` nonempty) when `k` already
holds a submapping recurses into it and replaces it in position. -/
theorem insertPath_into {k : Key} {a : Config} {s : Config}
    (h : lookupC k a = some (.vMap s))
    {rest : List Key} (hrest : rest ≠ []) (v : Value) :
    insertPath a (k :: rest) v =
      match insertPath s rest v with
      | .ok sub => .ok (replaceC k (.vMap sub) a)
      | .error e => .error e := by
  cases rest with
  | nil => exact absurd rfl hrest
  | cons q ps => simp only [insertPath, h]

theorem not_mem_keys_of_lookupC_none {k : Key} {c : Config}
    (h : lookupC k c = none) : k ∉ c.keys := by
  induction c using Config.inductionOn with
  | nil => simp
  | cons k' v r ih =>
    simp only [lookupC] at h
    by_cases hk : k' = k
    · simp [hk] at h
    · simp only [if_neg hk] at h
      simp only [Config.keys_cons, List.mem_cons]
      rintro (he | hm)
      · exact hk he.symm
      · exact ih h hm

theorem lookupC_append_cons_self {k : Key} {a : Config} (h : k ∉ a.keys)
    (v : Value) : lookupC k (a ++ .cons k v .nil) = some v := by
  rw [lookupC_append_left _ (lookupC_not_mem h)]
  simp [lookupC]

theorem replaceC_append_cons_self {k : Key} {a : Config} (h : k ∉ a.keys)
    (v v' : Value) :
    replaceC k v (a ++ .cons k v' .nil) = a ++ .cons k v .nil := by
  rw [replaceC_append_right h, replaceC_cons_self]

/-- Lifting an insertion fold under a fresh key `k`: folding the entries of a
flat mapping, each key prefixed by `k.`, into `a ++ [k ↦ sub]` runs the
unprefixed fold inside the submapping `sub`. -/
theorem foldInsert_prefixed {k : Key} (hk : '.' ∉ k) {a : Config}
    (ha : k ∉ a.keys) (F : Flat) (s : Config) :
    foldInsert (a ++ .cons k (.vMap s) .nil)
        (F.map (fun p => (k ++ '.' :: p.1, p.2))) =
      match foldInsert s F with
      | .ok s' => .ok (a ++ .cons k (.vMap s') .nil)
      | .error e => .error e := by
  induction F generalizing s with
  | nil => rfl
  | cons p F' ih =>
    simp only [List.map_cons, foldInsert]
    rw [splitOnChar_append_sep hk]
    rw [insertPath_into (lookupC_append_cons_self ha _)
      (splitOnChar_ne_nil '.' p.1)]
    cases hstep : insertPath s (splitOnChar '.' p.1) p.2 with
    | ok sub =>
      simp only
      rw [replaceC_append_cons_self ha]
      exact ih sub
    | error e => rfl

/-- A nonempty configuration with no empty submappings has a nonempty
flattening. -/
theorem flattenC_ne_nil : ∀ (m : Config), noEmptyConfig m = true →
    m ≠ .nil → flattenC m ≠ []
  | .nil, _, h2 => absurd rfl h2
  | .cons k (.leaf l) r, _, _ => by simp [flattenC, flattenV]
  | .cons k (.vMap m') r, h1, _ => by
    simp only [noEmptyConfig, noEmptyValue, Bool.and_eq_true, Bool.not_eq_true',
      decide_eq_false_iff_not] at h1
    have hm' : flattenC m' ≠ [] := flattenC_ne_nil m' h1.1.2 h1.1.1
    simp only [flattenC, flattenV, ne_eq, List.append_eq_nil, List.map_eq_nil_iff]
    intro hcon
    exact hm' hcon.1

/-- The core round-trip lemma: folding the flattening of a well-formed
configuration `c` into an accumulator `a` disjoint from `c`'s top-level keys
rebuilds `a ++ c`. -/
theorem foldInsert_flattenC : ∀ (c a : Config),
    noSepConfig c = true → dictConfig c = true → noEmptyConfig c = true →
    (∀ k, k ∈ c.keys → lookupC k a = none) →
    foldInsert a (flattenC c) = .ok (a ++ c)
  | .nil, a, _, _, _, _ => by simp [flattenC, foldInsert]
  | .cons k (.leaf l) r, a, hsep, hdict, hne, hdisj => by
    simp only [noSepConfig, dictConfig, noEmptyConfig, noSepValue, dictValue,
      noEmptyValue, Bool.and_eq_true, Bool.not_eq_true',
      decide_eq_false_iff_not] at hsep hdict hne
    have hka : lookupC k a = none := hdisj k (by simp)
    have hdisj' : ∀ k', k' ∈ r.keys →
        lookupC k' (a ++ Config.cons k (.leaf l) .nil) = none := by
      intro k' hk'
      have hne' : k ≠ k' := fun he => hdict.1.1 (he ▸ hk')
      rw [lookupC_append_left _ (hdisj k' (by simp [hk']))]
      simp [lookupC, hne']
    show foldInsert a ((k, Value.leaf l) :: flattenC r) = _
    simp only [foldInsert]
    rw [splitOnChar_of_not_mem hsep.1.1]
    simp only [insertPath, hka]
    have := foldInsert_flattenC r (a ++ Config.cons k (.leaf l) .nil)
      hsep.2 hdict.2 hne.2 hdisj'
    rw [this, Config.append_assoc]
    rfl
  | .cons k (.vMap m) r, a, hsep, hdict, hne, hdisj => by
    simp only [noSepConfig, dictConfig, noEmptyConfig, noSepValue, dictValue,
      noEmptyValue, Bool.and_eq_true, Bool.not_eq_true',
      decide_eq_false_iff_not] at hsep hdict hne
    have hka : lookupC k a = none := hdisj k (by simp)
    have hknotmem : k ∉ a.keys := not_mem_keys_of_lookupC_none hka
    have hdisj' : ∀ k', k' ∈ r.keys →
        lookupC k' (a ++ Config.cons k (.vMap m) .nil) = none := by
      intro k' hk'
      have hne' : k ≠ k' := fun he => hdict.1.1 (he ▸ hk')
      rw [lookupC_append_left _ (hdisj k' (by simp [hk']))]
      simp [lookupC, hne']
    have hm_ne : m ≠ .nil := hne.1.1
    have hinner : foldInsert .nil (flattenC m) = .ok m := by
      have := foldInsert_flattenC m .nil hsep.1.2 hdict.1.2 hne.1.2
        (fun _ _ => rfl)
      simpa using this
    have hfne : flattenC m ≠ [] := flattenC_ne_nil m hne.1.2 hm_ne
    show foldInsert a
        ((flattenC m).map (fun p => (k ++ '.' :: p.1, p.2)) ++ flattenC r) = _
    rw [foldInsert_append]
    have hblock : foldInsert a
        ((flattenC m).map (fun p => (k ++ '.' :: p.1, p.2))) =
        .ok (a ++ Config.cons k (.vMap m) .nil) := by
      cases hF : flattenC m with
      | nil => exact absurd hF hfne
      | cons x F' =>
        rw [hF] at hinner
        simp only [foldInsert] at hinner
        cases hstep : insertPath .nil (splitOnChar '.' x.1) x.2 with
        | error e => rw [hstep] at hinner; exact nomatch hinner
        | ok s1 =>
          rw [hstep] at hinner
          simp only [List.map_cons, foldInsert]
          rw [splitOnChar_append_sep hsep.1.1]
          rw [insertPath_fresh hka (splitOnChar_ne_nil '.' x.1)]
          rw [hstep]
          have hinner' : foldInsert s1 F' = Except.ok m := hinner
          simp only
          rw [foldInsert_prefixed hsep.1.1 hknotmem F' s1, hinner']
    rw [hblock]
    simp only
    have := foldInsert_flattenC r (a ++ Config.cons k (.vMap m) .nil)
      hsep.2 hdict.2 hne.2 hdisj'
    rw [this, Config.append_assoc]
    rfl

/-- C8 (amended): for every nested configuration `c` whose mapping keys are
pairwise distinct at each level (as in any Python dict tree), contain no
path-separator character, and whose values contain no empty submapping,
`unflatten(flatten(c)) == c`. -/
theorem c8_flatten_unflatten_roundtrip (c : Config)
    (hsep : noSepConfig c = true) (hdict : dictConfig c = true)
    (hne : noEmptyConfig c = true) :
    unflattenFlat (flattenC c) = .ok c := by
  have h := foldInsert_flattenC c .nil hsep hdict hne (fun _ _ => rfl)
  simpa [unflattenFlat] using h

theorem c8_flatten_unflatten_roundtrip_witness :
    (noSepConfig (Config.cons "a".toList
        (.vMap (Config.cons "b".toList (.leaf (.lInt 1)) .nil))
        (Config.cons "c".toList (.leaf (.lStr "x".toList)) .nil)) = true) ∧
    unflattenFlat (flattenC (Config.cons "a".toList
        (.vMap (Config.cons "b".toList (.leaf (.lInt 1)) .nil))
        (Config.cons "c".toList (.leaf (.lStr "x".toList)) .nil))) =
      .ok (Config.cons "a".toList
        (.vMap (Config.cons "b".toList (.leaf (.lInt 1)) .nil))
        (Config.cons "c".toList (.leaf (.lStr "x".toList)) .nil)) :=
  ⟨by decide,
    c8_flatten_unflatten_roundtrip _ (by decide) (by decide) (by decide)⟩

/-- C8 counterexample: the configuration `{"a": {}}` has no path separator in
any mapping key (and distinct keys), yet flattening erases the empty
submapping, so the round trip returns `{}`, not the original configuration:
the claim as stated (assuming only separator-free keys) is false. -/
theorem c8_counterexample :
    noSepConfig (Config.cons "a".toList (.vMap .nil) .nil) = true ∧
    dictConfig (Config.cons "a".toList (.vMap .nil) .nil) = true ∧
    unflattenFlat (flattenC (Config.cons "a".toList (.vMap .nil) .nil)) =
      .ok Config.nil ∧
    Config.nil ≠ Config.cons "a".toList (.vMap .nil) .nil := by decide

/-! ## Keys produced by unflattening

Every flat key of an unflattened configuration comes from the flat mapping
that was folded in.  Used for the whitelist-restriction property of the
isolated resolution loop. -/

theorem flattenC_append (a b : Config) :
    flattenC (a ++ b) = flattenC a ++ flattenC b := by
  induction a using Config.inductionOn with
  | nil => rfl
  | cons k v r ih =>
    show flattenC (Config.cons k v (r ++ b)) = _
    simp only [flattenC, ih, List.append_assoc]

/-- Every value occurring in a flattening is a leaf. -/
theorem flattenC_values_leaf : ∀ (c : Config), ∀ kv ∈ flattenC c,
    ∃ l, kv.2 = Value.leaf l
  | .nil => by simp [flattenC]
  | .cons k (.leaf l) r => by
    intro kv hkv
    simp only [flattenC, flattenV, List.mem_append, List.mem_singleton] at hkv
    rcases hkv with h | h
    · exact ⟨l, by rw [h]⟩
    · exact flattenC_values_leaf r kv h
  | .cons k (.vMap m) r => by
    intro kv hkv
    simp only [flattenC, flattenV, List.mem_append, List.mem_map] at hkv
    rcases hkv with ⟨p, hp, he⟩ | h
    · obtain ⟨l, hl⟩ := flattenC_values_leaf m p hp
      exact ⟨l, by rw [← he]; exact hl⟩
    · exact flattenC_values_leaf r kv h

theorem flattenC_replaceC_subset (p : Key) (v : Value) (c : Config) :
    ∀ kv ∈ flattenC (replaceC p v c),
      kv.1 ∈ (flattenC c).map Prod.fst ∨ kv ∈ flattenV p v := by
  induction c using Config.inductionOn with
  | nil => simp [replaceC, flattenC]
  | cons k w r ih =>
    intro kv hkv
    by_cases hk : k = p
    · subst hk
      rw [replaceC_cons_self] at hkv
      simp only [flattenC, List.mem_append] at hkv
      rcases hkv with h | h
      · exact Or.inr h
      · exact Or.inl (by
          simp only [flattenC, List.map_append, List.mem_append]
          exact Or.inr (List.mem_map_of_mem Prod.fst h))
    · have : replaceC p v (Config.cons k w r) =
          Config.cons k w (replaceC p v r) := by
        simp [replaceC, hk]
      rw [this] at hkv
      simp only [flattenC, List.mem_append] at hkv
      rcases hkv with h | h
      · exact Or.inl (by
          simp only [flattenC, List.map_append, List.mem_append]
          exact Or.inl (List.mem_map_of_mem Prod.fst h))
      · rcases ih kv h with h' | h'
        · exact Or.inl (by
            simp only [flattenC, List.map_append, List.mem_append]
            exact Or.inr h')
        · exact Or.inr h'

/-- The flattening of a configuration contains the flattening of any value
found by a top-level lookup. -/
theorem flattenV_subset_of_lookupC {p : Key} {w : Value} {c : Config}
    (h : lookupC p c = some w) :
    ∀ e ∈ flattenV p w, e.1 ∈ (flattenC c).map Prod.fst := by
  induction c using Config.inductionOn with
  | nil => simp [lookupC] at h
  | cons k w' r ih =>
    intro e he
    simp only [lookupC] at h
    by_cases hk : k = p
    · rw [if_pos hk] at h
      subst hk
      obtain rfl : w' = w := by injection h
      simp only [flattenC, List.map_append, List.mem_append]
      exact Or.inl (List.mem_map_of_mem Prod.fst he)
    · rw [if_neg hk] at h
      simp only [flattenC, List.map_append, List.mem_append]
      exact Or.inr (ih h e he)

/-- Inserting a leaf along a path only creates flat keys that either were
already present or spell out the inserted path. -/
theorem insertPath_flatten_keys : ∀ (path : List Key) (c : Config) (l : Leaf)
    (c' : Config), insertPath c path (.leaf l) = .ok c' →
    ∀ kv ∈ flattenC c', kv.1 ∈ (flattenC c).map Prod.fst ∨
      kv.1 = joinSegs '.' path
  | [], c, l, c', h => by simp [insertPath] at h
  | [p], c, l, c', h => by
    intro kv hkv
    simp only [insertPath] at h
    cases hlk : lookupC p c with
    | none =>
      rw [hlk] at h
      obtain rfl : c ++ Config.cons p (.leaf l) .nil = c' := by injection h
      rw [flattenC_append] at hkv
      simp only [List.mem_append] at hkv
      rcases hkv with h' | h'
      · exact Or.inl (List.mem_map_of_mem Prod.fst h')
      · simp only [flattenC, flattenV, Config.append_nil] at h'
        simp only [List.mem_append, List.mem_singleton, List.not_mem_nil,
          or_false] at h'
        right
        rw [h']
        rfl
    | some w =>
      rw [hlk] at h
      cases w with
      | vMap _ => exact nomatch h
      | leaf l' =>
        obtain rfl : replaceC p (.leaf l) c = c' := by injection h
        rcases flattenC_replaceC_subset p (.leaf l) c kv hkv with h' | h'
        · exact Or.inl h'
        · simp only [flattenV, List.mem_singleton] at h'
          right
          rw [h']
          rfl
  | p :: q :: ps, c, l, c', h => by
    intro kv hkv
    simp only [insertPath] at h
    cases hlk : lookupC p c with
    | none =>
      rw [hlk] at h
      cases hsub : insertPath .nil (q :: ps) (.leaf l) with
      | error e => rw [hsub] at h; exact nomatch h
      | ok sub =>
        rw [hsub] at h
        obtain rfl : c ++ Config.cons p (.vMap sub) .nil = c' := by injection h
        rw [flattenC_append] at hkv
        simp only [List.mem_append] at hkv
        rcases hkv with h' | h'
        · exact Or.inl (List.mem_map_of_mem Prod.fst h')
        · simp only [flattenC, flattenV, Config.append_nil, List.append_nil,
            List.mem_map] at h'
          obtain ⟨w, hw, he⟩ := h'
          rcases insertPath_flatten_keys (q :: ps) .nil l sub hsub w hw with
            h'' | h''
          · simp [flattenC] at h''
          · right
            rw [← he, h'']
            rfl
    | some w =>
      rw [hlk] at h
      cases w with
      | leaf l' => exact nomatch h
      | vMap m =>
        have h2 : (match insertPath m (q :: ps) (Value.leaf l) with
            | Except.ok sub => Except.ok (replaceC p (.vMap sub) c)
            | Except.error e => Except.error e) = Except.ok c' := h
        cases hsub : insertPath m (q :: ps) (.leaf l) with
        | error e => rw [hsub] at h2; exact nomatch h2
        | ok sub =>
          rw [hsub] at h2
          obtain rfl : replaceC p (.vMap sub) c = c' := by injection h2
          rcases flattenC_replaceC_subset p (.vMap sub) c kv hkv with h' | h'
          · exact Or.inl h'
          · simp only [flattenV, List.mem_map] at h'
            obtain ⟨w', hw', he⟩ := h'
            rcases insertPath_flatten_keys (q :: ps) m l sub hsub w' hw' with
              h'' | h''
            · left
              simp only [List.mem_map] at h''
              obtain ⟨pr, hpr, hpr1⟩ := h''
              have hmem : (p ++ '.' :: pr.1, pr.2) ∈ flattenV p (.vMap m) := by
                simp only [flattenV, List.mem_map]
                exact ⟨pr, hpr, rfl⟩
              have hin := flattenV_subset_of_lookupC hlk _ hmem
              rw [← he]
              simpa [hpr1] using hin
            · right
              rw [← he, h'']
              rfl

/-- Folding a flat mapping of leaves into an accumulator only creates flat
keys that were already present or are keys of the mapping. -/
theorem foldInsert_flatten_keys : ∀ (F : Flat) (a c : Config),
    (∀ kv ∈ F, ∃ l, kv.2 = Value.leaf l) →
    foldInsert a F = .ok c →
    ∀ kv ∈ flattenC c,
      kv.1 ∈ (flattenC a).map Prod.fst ∨ kv.1 ∈ F.map Prod.fst
  | [], a, c, _, h => by
    obtain rfl : a = c := by injection h
    intro kv hkv
    exact Or.inl (List.mem_map_of_mem Prod.fst hkv)
  | f :: F', a, c, hleaf, h => by
    simp only [foldInsert] at h
    cases hstep : insertPath a (splitOnChar '.' f.1) f.2 with
    | error e => rw [hstep] at h; exact nomatch h
    | ok c1 =>
      rw [hstep] at h
      intro kv hkv
      rcases foldInsert_flatten_keys F' c1 c
          (fun kv' hkv' => hleaf kv' (List.mem_cons_of_mem f hkv')) h kv hkv
        with h' | h'
      · simp only [List.mem_map] at h'
        obtain ⟨kv', hkv', hk1⟩ := h'
        obtain ⟨l, hl⟩ := hleaf f (List.mem_cons_self f F')
        rw [hl] at hstep
        rcases insertPath_flatten_keys _ a l c1 hstep kv' hkv' with h'' | h''
        · left
          rw [← hk1]
          exact h''
        · right
          rw [← hk1, h'', joinSegs_splitOnChar]
          simp
      · right
        simp only [List.map_cons, List.mem_cons]
        exact Or.inr h'

/-! ## Isolated configuration resolution (`seml/hydra/config.py`)

`_resolve_hydra_configs` composes each override set against the discovered
configuration tree, resolves it, restricts the flat result to the keys named
by the override set and unflattens it.  The composition engine
(`hydra.compose` + `OmegaConf.to_container(resolve=True)`) is external to
this repository and enters the model as an opaque function parameter. -/

/-- One hydra override string such as `a.b=1`, modelled as its characters. -/
abbrev Override := Key

/-- `override.split('=')[0]`: the flat key named by an override string. -/
def overrideKey (o : Override) : Key := o.takeWhile (fun c => c ≠ '=')

/-- The body of the override-set loop of `_resolve_hydra_configs`
(seml/hydra/config.py lines 93-102) for one override set: compose the tree
with the overrides (`compose` parameter: the external engine), flatten the
resolved container, keep exactly the flat keys named by the override set and
unflatten the rest. -/
def resolveOneConfig (compose : List Override → Config)
    (overrides : List Override) : Except String Config :=
  let flatKeys := overrides.map overrideKey
  unflattenFlat ((flattenC (compose overrides)).filter
    (fun kv => decide (kv.1 ∈ flatKeys)))

/-- The batch loop of `_resolve_hydra_configs` over `overrides_per_config`:
resolve each override set in order, collecting into `configs`
(= `result['configs']`); an error aborts the whole batch. -/
def resolveHydraConfigs (compose : List Override → Config) :
    List (List Override) → Except String (List Config)
  | [] => .ok []
  | ovs :: rest =>
    match resolveOneConfig compose ovs with
    | .error e => .error e
    | .ok c =>
      match resolveHydraConfigs compose rest with
      | .error e => .error e
      | .ok cs => .ok (c :: cs)

/-- Every flat key of a successfully resolved configuration is named by its
override set. -/
theorem resolveOneConfig_whitelist (compose : List Override → Config)
    (ovs : List Override) (c : Config)
    (h : resolveOneConfig compose ovs = .ok c) :
    ∀ kv ∈ flattenC c, kv.1 ∈ ovs.map overrideKey := by
  intro kv hkv
  unfold resolveOneConfig at h
  have hleaf : ∀ kv' ∈ (flattenC (compose ovs)).filter
      (fun kv' => decide (kv'.1 ∈ ovs.map overrideKey)), ∃ l, kv'.2 = Value.leaf l :=
    fun kv' hkv' => flattenC_values_leaf _ kv' (List.mem_of_mem_filter hkv')
  rcases foldInsert_flatten_keys _ .nil c hleaf h kv hkv with h' | h'
  · simp [flattenC] at h'
  · simp only [List.mem_map] at h'
    obtain ⟨kv', hkv', hk1⟩ := h'
    have hmem := List.of_mem_filter hkv'
    rw [← hk1]
    simpa using hmem

/-- C2: for every batch of override sets submitted to the isolated resolution
loop, the returned list of nested configurations corresponds to the input
override sets in order (the i-th output is resolved from the i-th set), and
every flat key of each returned configuration is in that override set's
whitelist — keys materialized by resolution but not named by the override
set are not retained. -/
theorem c2_resolution_order_and_whitelist (compose : List Override → Config)
    (ovss : List (List Override)) (cs : List Config)
    (h : resolveHydraConfigs compose ovss = .ok cs) :
    cs.length = ovss.length ∧
    ∀ i (hi : i < ovss.length) (hj : i < cs.length),
      resolveOneConfig compose (ovss.get ⟨i, hi⟩) = .ok (cs.get ⟨i, hj⟩) ∧
      ∀ kv ∈ flattenC (cs.get ⟨i, hj⟩),
        kv.1 ∈ (ovss.get ⟨i, hi⟩).map overrideKey := by
  induction ovss generalizing cs with
  | nil =>
    obtain rfl : [] = cs := by injection h
    exact ⟨rfl, fun i hi => absurd hi (by simp)⟩
  | cons ovs rest ih =>
    simp only [resolveHydraConfigs] at h
    cases h1 : resolveOneConfig compose ovs with
    | error e => rw [h1] at h; exact nomatch h
    | ok c =>
      rw [h1] at h
      cases h2 : resolveHydraConfigs compose rest with
      | error e => rw [h2] at h; exact nomatch h
      | ok cs' =>
        rw [h2] at h
        obtain rfl : c :: cs' = cs := by injection h
        obtain ⟨hlen, hpt⟩ := ih cs' h2
        refine ⟨by simp [hlen], ?_⟩
        intro i hi hj
        cases i with
        | zero => exact ⟨h1, resolveOneConfig_whitelist compose ovs c h1⟩
        | succ n =>
          have hn : n < rest.length := by simpa using hi
          have hn' : n < cs'.length := by simpa using hj
          simpa using hpt n hn hn'

/-- The nested tree `{"a": {"b": 1}}`. -/
def configAB1 : Config :=
  .cons "a".toList (.vMap (.cons "b".toList (.leaf (.lInt 1)) .nil)) .nil

/-- The nested tree `{"a": {"b": 2}}`. -/
def configAB2 : Config :=
  .cons "a".toList (.vMap (.cons "b".toList (.leaf (.lInt 2)) .nil)) .nil

/-- A concrete stand-in for the external composition engine with no
interpolations: `a.b=1` composes to `{"a": {"b": 1}}`, anything else to
`{"a": {"b": 2}}`. -/
def composeExample (ovs : List Override) : Config :=
  if ovs = ["a.b=1".toList] then configAB1 else configAB2

theorem c2_resolution_order_and_whitelist_witness :
    resolveHydraConfigs composeExample [["a.b=1".toList], ["a.b=2".toList]] =
      .ok [configAB1, configAB2] ∧
    ([configAB1, configAB2].length =
      [["a.b=1".toList], ["a.b=2".toList]].length ∧
    ∀ i (hi : i < [["a.b=1".toList], ["a.b=2".toList]].length)
      (hj : i < [configAB1, configAB2].length),
      resolveOneConfig composeExample
          ([["a.b=1".toList], ["a.b=2".toList]].get ⟨i, hi⟩) =
        .ok ([configAB1, configAB2].get ⟨i, hj⟩) ∧
      ∀ kv ∈ flattenC ([configAB1, configAB2].get ⟨i, hj⟩),
        kv.1 ∈ ([["a.b=1".toList], ["a.b=2".toList]].get ⟨i, hi⟩).map
          overrideKey) :=
  ⟨by decide,
    c2_resolution_order_and_whitelist composeExample
      [["a.b=1".toList], ["a.b=2".toList]] [configAB1, configAB2] (by decide)⟩

/-! ## Override translation (`config_to_hydra_overrides`) -/

/-- Python `pat in s` on strings: substring containment. -/
def isSubOf (pat : Key) : Key → Bool
  | [] => decide (pat = [])
  | x :: xs => pat.isPrefixOf (x :: xs) || isSubOf pat xs

/-- Deletion loop of `listReplaceEmpty`; the `fuel` argument only bounds the
recursion depth (each step consumes at least one character, so a fuel equal
to the string length never runs out). -/
def listReplaceAux (pat : Key) : Nat → Key → Key
  | _, [] => []
  | 0, s => s
  | fuel + 1, x :: xs =>
    if pat ≠ [] ∧ pat.isPrefixOf (x :: xs) then
      listReplaceAux pat fuel ((x :: xs).drop pat.length)
    else
      x :: listReplaceAux pat fuel xs

/-- Python `s.replace(pat, '')` for a nonempty pattern: delete every
non-overlapping occurrence of `pat`, scanning left to right.  (On an empty
pattern it leaves the string unchanged; the caller always passes a nonempty
marker.) -/
def listReplaceEmpty (pat s : Key) : Key := listReplaceAux pat s.length s

/-- Python `f'{value}'` rendering of a value in an override string; the exact
rendering of non-scalar values does not matter to any claim. -/
def showValue : Value → Key
  | .leaf (.lInt n) => (toString n).toList
  | .leaf (.lStr s) => s
  | .leaf (.lBool b) => if b then "True".toList else "False".toList
  | .leaf .lNull => "None".toList
  | .vMap _ => "dict".toList

/-- `config_to_hydra_overrides` (seml/hydra/config.py lines 136-153): iterate
over the flattened configuration in order; an entry whose key contains the
group-marker segment `gp + "."` is recorded under its original key in the
group-override mapping and has the marker stripped for its override string;
every entry (group-marked or not) appends one `key=value` override string.
The marker `SETTINGS.HYDRA_GROUP_ARGUMENTS_PREFIX` lives in the settings
module, which is not among the sources, so the prefix is the parameter
`gp`. -/
def configToHydraOverrides (gp : Key) (config : Config) :
    List Key × List (Key × Value) :=
  (flattenC config).foldl
    (fun acc kv =>
      if isSubOf (gp ++ ['.']) kv.1 then
        (acc.1 ++ [listReplaceEmpty (gp ++ ['.']) kv.1 ++ '=' :: showValue kv.2],
         acc.2 ++ [kv])
      else
        (acc.1 ++ [kv.1 ++ '=' :: showValue kv.2], acc.2))
    ([], [])

theorem configToHydraOverrides_foldl (gp : Key) :
    ∀ (L : Flat) (acc : List Key × List (Key × Value)),
    L.foldl (fun acc kv =>
      if isSubOf (gp ++ ['.']) kv.1 then
        (acc.1 ++ [listReplaceEmpty (gp ++ ['.']) kv.1 ++ '=' :: showValue kv.2],
         acc.2 ++ [kv])
      else
        (acc.1 ++ [kv.1 ++ '=' :: showValue kv.2], acc.2)) acc =
    (acc.1 ++ L.map (fun kv =>
        (if isSubOf (gp ++ ['.']) kv.1 then
          listReplaceEmpty (gp ++ ['.']) kv.1 else kv.1) ++ '=' :: showValue kv.2),
     acc.2 ++ L.filter (fun kv => isSubOf (gp ++ ['.']) kv.1))
  | [], acc => by simp
  | kv :: L', acc => by
    simp only [List.foldl_cons, List.map_cons, List.filter_cons]
    by_cases hg : isSubOf (gp ++ ['.']) kv.1
    · simp only [hg, if_true]
      rw [configToHydraOverrides_foldl gp L']
      simp
    · simp only [hg, if_false, Bool.false_eq_true]
      rw [configToHydraOverrides_foldl gp L']
      simp [hg]

/-- C3 (amended): in override translation, for every configuration and group
marker: the plain overrides list has exactly one `key=value` string per flat
entry, in order, where group-marked keys appear with the marker stripped and
all other keys appear unchanged; the group-overrides mapping consists of
exactly the group-marked flat entries under their original (unstripped)
keys.  (The source neither strips the key stored in the group mapping nor
excludes group-marked keys from the plain overrides list.) -/
theorem c3_override_translation (gp : Key) (config : Config) :
    (configToHydraOverrides gp config).1 =
      (flattenC config).map (fun kv =>
        (if isSubOf (gp ++ ['.']) kv.1 then
          listReplaceEmpty (gp ++ ['.']) kv.1 else kv.1) ++ '=' :: showValue kv.2) ∧
    (configToHydraOverrides gp config).2 =
      (flattenC config).filter (fun kv => isSubOf (gp ++ ['.']) kv.1) := by
  unfold configToHydraOverrides
  rw [configToHydraOverrides_foldl gp (flattenC config) ([], [])]
  simp

/-- C3 counterexample: with group marker `g` and configuration
`{"g": {"x": 1}}` (flat key `g.x` contains the marker segment `g.`), the
translation emits the stripped override string `x=1` in the plain overrides
list — the key is not excluded — and records the entry in the
group-overrides mapping under the unstripped key `g.x`, not under `x`. -/
theorem c3_counterexample :
    (configToHydraOverrides "g".toList
        (.cons "g".toList (.vMap (.cons "x".toList (.leaf (.lInt 1)) .nil))
          .nil)).1 = ["x=1".toList] ∧
    (configToHydraOverrides "g".toList
        (.cons "g".toList (.vMap (.cons "x".toList (.leaf (.lInt 1)) .nil))
          .nil)).2 = [("g.x".toList, .leaf (.lInt 1))] ∧
    ¬ ((configToHydraOverrides "g".toList
        (.cons "g".toList (.vMap (.cons "x".toList (.leaf (.lInt 1)) .nil))
          .nil)).2 = [("x".toList, .leaf (.lInt 1))]) := by decide

/-! ## The queueing pipeline (`seml/queuing.py`) -/

/-- The literal key `'config_hash'`. -/
def CONFIG_HASH_KEY : Key := "config_hash".toList

/-- Python `d[k] = v` (also `{**c, **{k: v}}`): overwrite in place if the key
is present, append otherwise. -/
def setKey (k : Key) (v : Value) : Config → Config
  | .nil => .cons k v .nil
  | .cons k' v' r => if k' = k then .cons k' v r else .cons k' v' (setKey k v r)

/-- Python `del d[k]`: remove the first entry with key `k`. -/
def delKey (k : Key) : Config → Config
  | .nil => .nil
  | .cons k' v r => if k' = k then r else .cons k' v (delKey k r)

theorem lookupC_delKey_self {k : Key} {c : Config} (hnd : c.keys.Nodup) :
    lookupC k (delKey k c) = none := by
  induction c using Config.inductionOn with
  | nil => rfl
  | cons k' v r ih =>
    simp only [Config.keys_cons, List.nodup_cons] at hnd
    simp only [delKey]
    by_cases hk : k' = k
    · rw [if_pos hk]
      subst hk
      exact lookupC_not_mem hnd.1
    · rw [if_neg hk]
      simp only [lookupC, if_neg hk]
      exact ih hnd.2

/-- A MongoDB filter document: the argument of `collection.find_one`. -/
abbrev Query := List (Key × Value)

/-- The lookup document `{f'config.{key}': value for key, value in
config.items()}` built from the top-level entries of a configuration. -/
def configItemsQuery : Config → Query
  | .nil => []
  | .cons k v r => ("config.".toList ++ k, v) :: configItemsQuery r

/-- `filter_experiments` (seml/queuing.py lines 12-49).  The store lookup
`collection.find_one` is external and enters as the parameter `findOne`;
only whether it returns `None` is inspected.  A configuration carrying
`config_hash` has that key deleted (in place in the source) and is looked up
by hash; any other configuration is looked up by its top-level entries
prefixed with `config.`.  Configurations whose lookup finds nothing are
collected in order. -/
def filterExperiments (findOne : Query → Option Config)
    (configurations : List Config) : List Config :=
  configurations.foldl (fun acc config =>
    match lookupC CONFIG_HASH_KEY config with
    | some h =>
      let config' := delKey CONFIG_HASH_KEY config
      match findOne [(CONFIG_HASH_KEY, h)] with
      | none => acc ++ [config']
      | some _ => acc
    | none =>
      match findOne (configItemsQuery config) with
      | none => acc ++ [config]
      | some _ => acc) []

/-- The per-configuration decision of `filter_experiments`: the returned
configuration, when the store lookup finds no record. -/
def filterExperimentsStep (findOne : Query → Option Config) (config : Config) :
    Option Config :=
  match lookupC CONFIG_HASH_KEY config with
  | some h =>
    if findOne [(CONFIG_HASH_KEY, h)] = none
    then some (delKey CONFIG_HASH_KEY config) else none
  | none =>
    if findOne (configItemsQuery config) = none then some config else none

theorem filterExperiments_foldl (findOne : Query → Option Config) :
    ∀ (l : List Config) (acc : List Config),
    l.foldl (fun acc config =>
      match lookupC CONFIG_HASH_KEY config with
      | some h =>
        let config' := delKey CONFIG_HASH_KEY config
        match findOne [(CONFIG_HASH_KEY, h)] with
        | none => acc ++ [config']
        | some _ => acc
      | none =>
        match findOne (configItemsQuery config) with
        | none => acc ++ [config]
        | some _ => acc) acc =
      acc ++ l.filterMap (filterExperimentsStep findOne)
  | [], acc => by simp
  | config :: l', acc => by
    simp only [List.foldl_cons, List.filterMap_cons]
    cases hlk : lookupC CONFIG_HASH_KEY config with
    | some h =>
      cases hfo : findOne [(CONFIG_HASH_KEY, h)] with
      | none =>
        simp only [filterExperimentsStep, hlk, hfo, if_pos rfl]
        rw [filterExperiments_foldl findOne l']
        simp
      | some d =>
        simp only [filterExperimentsStep, hlk, hfo]
        rw [filterExperiments_foldl findOne l']
        simp
    | none =>
      cases hfo : findOne (configItemsQuery config) with
      | none =>
        simp only [filterExperimentsStep, hlk, hfo, if_pos rfl]
        rw [filterExperiments_foldl findOne l']
        simp
      | some d =>
        simp only [filterExperimentsStep, hlk, hfo]
        rw [filterExperiments_foldl findOne l']
        simp

/-- C10 (amended): `filter_experiments` returns, in order, exactly those
input configurations whose store lookup finds no existing record — looked up
by the `config_hash` field when present, otherwise by the configuration's
top-level entries each prefixed with `config.` (not by its recursively
flattened entries) — with the `config_hash` key deleted from each
hash-carrying configuration, so (for dict inputs, whose keys are distinct)
no returned configuration contains `config_hash`. -/
theorem c10_filter_experiments (findOne : Query → Option Config)
    (configurations : List Config)
    (hnd : ∀ c ∈ configurations, c.keys.Nodup) :
    filterExperiments findOne configurations =
      configurations.filterMap (filterExperimentsStep findOne) ∧
    ∀ c' ∈ filterExperiments findOne configurations,
      lookupC CONFIG_HASH_KEY c' = none := by
  have hchar := filterExperiments_foldl findOne configurations []
  refine ⟨hchar, ?_⟩
  intro c' hc'
  rw [show filterExperiments findOne configurations =
    configurations.filterMap (filterExperimentsStep findOne) from hchar] at hc'
  obtain ⟨c, hc, hstep⟩ := List.mem_filterMap.mp hc'
  unfold filterExperimentsStep at hstep
  cases hlk : lookupC CONFIG_HASH_KEY c with
  | some h =>
    rw [hlk] at hstep
    have hstep2 : (if findOne [(CONFIG_HASH_KEY, h)] = none
        then some (delKey CONFIG_HASH_KEY c) else none) = some c' := hstep
    by_cases hfo : findOne [(CONFIG_HASH_KEY, h)] = none
    · rw [if_pos hfo] at hstep2
      obtain rfl : delKey CONFIG_HASH_KEY c = c' := by injection hstep2
      exact lookupC_delKey_self (hnd c hc)
    · rw [if_neg hfo] at hstep2
      exact nomatch hstep2
  | none =>
    rw [hlk] at hstep
    have hstep2 : (if findOne (configItemsQuery c) = none
        then some c else none) = some c' := hstep
    by_cases hfo : findOne (configItemsQuery c) = none
    · rw [if_pos hfo] at hstep2
      obtain rfl : c = c' := by injection hstep2
      exact hlk
    · rw [if_neg hfo] at hstep2
      exact nomatch hstep2

/-- C10 counterexample: for the nested configuration `{"a": {"b": 1}}`
(carrying no `config_hash`) and a store whose lookup finds nothing for the
recursively flattened document `{"config.a.b": 1}` but finds a record for
the top-level document `{"config.a": {"b": 1}}`, `filter_experiments` drops
the configuration even though the lookup by flattened entries finds no
record — the lookup is by top-level items, not by flattened entries. -/
theorem c10_counterexample :
    filterExperiments
      (fun q => if q = [("config.a.b".toList, Value.leaf (.lInt 1))]
        then none else some .nil)
      [.cons "a".toList (.vMap (.cons "b".toList (.leaf (.lInt 1)) .nil)) .nil]
      = [] ∧
    (fun (q : Query) => if q = [("config.a.b".toList, Value.leaf (.lInt 1))]
        then none else some Config.nil)
      ((flattenC (.cons "a".toList
          (.vMap (.cons "b".toList (.leaf (.lInt 1)) .nil)) .nil)).map
        (fun kv => ("config.".toList ++ kv.1, kv.2))) = none := by decide

/-- Lexicographic order on keys (by character code), used to canonicalize
mapping key order for hashing. -/
def keyLe : Key → Key → Bool
  | [], _ => true
  | _ :: _, [] => false
  | a :: as, b :: bs => if a = b then keyLe as bs else decide (a < b)

/-- Insert an entry into a configuration whose keys are sorted by `keyLe`. -/
def insertSorted (k : Key) (v : Value) : Config → Config
  | .nil => .cons k v .nil
  | .cons k' v' r =>
    if keyLe k k' then .cons k v (.cons k' v' r)
    else .cons k' v' (insertSorted k v r)

mutual
/-- Sort the mapping keys of a configuration recursively. -/
def canonConfig : Config → Config
  | .nil => .nil
  | .cons k v r => insertSorted k (canonValue v) (canonConfig r)

/-- `canonConfig` under a value. -/
def canonValue : Value → Value
  | .leaf l => .leaf l
  | .vMap m => .vMap (canonConfig m)
end

/-- Modelled from the spec: `seml.utils.make_hash` (module missing from the
sources).  "canonicalizes the configuration (order-independent: e.g. sort
mapping keys recursively) then applies a cryptographic hash function; equal
configurations (by value, irrespective of key insertion order) must yield
equal digests."  The digest is modelled by the canonical form itself, which
has exactly the equalities the spec requires. -/
def makeHash (c : Config) : Value := .vMap (canonConfig c)

/-- Python dict assignment `d[k] = v` on hash-keyed association entries:
overwrite in place if the key is present, append otherwise. -/
def dictInsertKV (k : Value) (v : Config) :
    List (Value × Config) → List (Value × Config)
  | [] => [(k, v)]
  | (k', v') :: rest =>
    if k' = k then (k', v) :: rest else (k', v') :: dictInsertKV k v rest

/-- Lookup in a hash-keyed association list. -/
def lookupKV (k : Value) : List (Value × Config) → Option Config
  | [] => none
  | (k', v) :: rest => if k' = k then some v else lookupKV k rest

/-- The value of the last entry bearing key `k`. -/
def lastVal (k : Value) : List (Value × Config) → Option Config
  | [] => none
  | (k', v) :: rest =>
    match lastVal k rest with
    | some v' => some v'
    | none => if k' = k then some v else none

/-- A Python dict built by repeated assignment from an entry sequence, as in
a dict comprehension. -/
def pyDictFold (l : List (Value × Config)) : List (Value × Config) :=
  l.foldl (fun d kv => dictInsertKV kv.1 kv.2 d) []

/-- The within-batch duplicate-removal fragment of `queue_experiments`
(seml/queuing.py lines 173-191) with hashing enabled and duplicate detection
on: attach `config_hash` to each configuration
(`{**c, **{'config_hash': make_hash(c)}}`), build
`configs_dict = {c['config_hash']: c for c in configs}` and keep its
values. -/
def dedupBatchWithHashing (configs : List Config) : List Config :=
  let withHash := configs.map (fun c => setKey CONFIG_HASH_KEY (makeHash c) c)
  (withHash.foldl (fun d c =>
      dictInsertKV ((lookupC CONFIG_HASH_KEY c).getD default) c d) []).map
    Prod.snd

theorem lookupC_setKey_self (k : Key) (v : Value) (c : Config) :
    lookupC k (setKey k v c) = some v := by
  induction c using Config.inductionOn with
  | nil => simp [setKey, lookupC]
  | cons k' v' r ih =>
    simp only [setKey]
    by_cases hk : k' = k
    · rw [if_pos hk]; simp [lookupC, hk]
    · rw [if_neg hk]; simp [lookupC, hk, ih]

theorem lookupKV_dictInsertKV (k k2 : Value) (v : Config)
    (d : List (Value × Config)) :
    lookupKV k2 (dictInsertKV k v d) =
      if k = k2 then some v else lookupKV k2 d := by
  induction d with
  | nil => simp [dictInsertKV, lookupKV]
  | cons kv rest ih =>
    obtain ⟨k', v'⟩ := kv
    simp only [dictInsertKV]
    by_cases hk : k' = k
    · subst hk
      rw [if_pos rfl]
      by_cases h2 : k' = k2
      · subst h2; simp [lookupKV]
      · simp [lookupKV, h2]
    · rw [if_neg hk]
      by_cases h2 : k' = k2
      · subst h2
        have : ¬ k = k' := fun he => hk he.symm
        simp [lookupKV, this]
      · simp [lookupKV, h2, ih]

theorem lookupKV_pyDictFold :
    ∀ (l : List (Value × Config)) (d : List (Value × Config)) (k : Value),
    lookupKV k (l.foldl (fun d kv => dictInsertKV kv.1 kv.2 d) d) =
      match lastVal k l with
      | some v => some v
      | none => lookupKV k d
  | [], d, k => rfl
  | (k', v') :: rest, d, k => by
    simp only [List.foldl_cons, lastVal]
    rw [lookupKV_pyDictFold rest (dictInsertKV k' v' d) k]
    cases hlv : lastVal k rest with
    | some v => simp
    | none =>
      simp only
      rw [lookupKV_dictInsertKV]
      by_cases hk : k' = k
      · subst hk; simp
      · simp [hk, Ne.symm hk]

theorem getLast?_cons_ne_nil {α : Type} {l : List α} (h : l ≠ []) (a : α) :
    (a :: l).getLast? = l.getLast? := by
  cases l with
  | nil => exact absurd rfl h
  | cons b l' => exact List.getLast?_cons_cons ..

theorem lastVal_hashed (h : Value) : ∀ (configs : List Config),
    lastVal h (configs.map
        (fun c => (makeHash c, setKey CONFIG_HASH_KEY (makeHash c) c))) =
      ((configs.filter (fun c => decide (makeHash c = h))).getLast?).map
        (fun c => setKey CONFIG_HASH_KEY (makeHash c) c)
  | [] => rfl
  | c :: l => by
    simp only [List.map_cons, lastVal, List.filter_cons]
    rw [lastVal_hashed h l]
    cases hgl : (l.filter (fun c => decide (makeHash c = h))).getLast? with
    | some y =>
      have hne : l.filter (fun c => decide (makeHash c = h)) ≠ [] := by
        intro hnil
        rw [hnil] at hgl
        exact nomatch hgl
      by_cases hc : makeHash c = h
      · have hcons := getLast?_cons_ne_nil hne c
        simp [hc, hgl, hcons]
      · simp [hc, hgl]
    | none =>
      have hnil : l.filter (fun c => decide (makeHash c = h)) = [] :=
        List.getLast?_eq_none_iff.mp hgl
      by_cases hc : makeHash c = h
      · simp [hc, hnil, hgl]
      · simp [hc, hnil, hgl]

theorem keys_dictInsertKV (k : Value) (v : Config)
    (d : List (Value × Config)) :
    (dictInsertKV k v d).map Prod.fst =
      if k ∈ d.map Prod.fst then d.map Prod.fst
      else d.map Prod.fst ++ [k] := by
  induction d with
  | nil => simp [dictInsertKV]
  | cons kv rest ih =>
    obtain ⟨k', v'⟩ := kv
    simp only [dictInsertKV]
    by_cases hk : k' = k
    · subst hk; simp
    · rw [if_neg hk]
      simp only [List.map_cons, ih, List.mem_cons]
      by_cases hm : k ∈ rest.map Prod.fst
      · simp [hm, Ne.symm hk]
      · simp [hm, Ne.symm hk]

theorem nodupKeys_dictInsertKV {d : List (Value × Config)}
    (hnd : (d.map Prod.fst).Nodup) (k : Value) (v : Config) :
    ((dictInsertKV k v d).map Prod.fst).Nodup := by
  rw [keys_dictInsertKV]
  by_cases hm : k ∈ d.map Prod.fst
  · simpa [hm] using hnd
  · simp [hm, List.nodup_append, hnd]

theorem nodupKeys_pyDictFold :
    ∀ (l : List (Value × Config)) (d : List (Value × Config)),
    (d.map Prod.fst).Nodup →
    ((l.foldl (fun d kv => dictInsertKV kv.1 kv.2 d) d).map Prod.fst).Nodup
  | [], _, h => h
  | kv :: rest, d, h => by
    simp only [List.foldl_cons]
    exact nodupKeys_pyDictFold rest _ (nodupKeys_dictInsertKV h kv.1 kv.2)

theorem lookupKV_eq_some_of_mem {d : List (Value × Config)}
    (hnd : (d.map Prod.fst).Nodup) {k : Value} {v : Config}
    (hm : (k, v) ∈ d) : lookupKV k d = some v := by
  induction d with
  | nil => simp at hm
  | cons kv rest ih =>
    obtain ⟨k', v'⟩ := kv
    simp only [List.map_cons, List.nodup_cons] at hnd
    simp only [List.mem_cons, Prod.mk.injEq] at hm
    rcases hm with ⟨he1, he2⟩ | hm
    · subst he1; subst he2
      simp [lookupKV]
    · have hk : k' ≠ k := by
        intro he
        subst he
        exact hnd.1 (List.mem_map_of_mem Prod.fst hm)
      simp only [lookupKV, if_neg hk]
      exact ih hnd.2 hm

theorem mem_of_lookupKV_eq_some :
    ∀ {d : List (Value × Config)} {k : Value} {v : Config},
    lookupKV k d = some v → (k, v) ∈ d := by
  intro d
  induction d with
  | nil => intro k v h; exact nomatch h
  | cons kv rest ih =>
    intro k v h
    obtain ⟨k', v'⟩ := kv
    simp only [lookupKV] at h
    by_cases hk : k' = k
    · rw [if_pos hk] at h
      obtain rfl : v' = v := by injection h
      subst hk
      exact List.mem_cons_self ..
    · rw [if_neg hk] at h
      exact List.mem_cons_of_mem _ (ih h)

theorem mem_dictInsertKV {kv : Value × Config} {k : Value} {v : Config} :
    ∀ {d : List (Value × Config)}, kv ∈ dictInsertKV k v d →
      kv ∈ d ∨ kv = (k, v) := by
  intro d
  induction d with
  | nil =>
    intro h
    simp only [dictInsertKV, List.mem_singleton] at h
    exact Or.inr h
  | cons x rest ih =>
    intro h
    obtain ⟨k', v'⟩ := x
    simp only [dictInsertKV] at h
    by_cases hk : k' = k
    · rw [if_pos hk] at h
      subst hk
      simp only [List.mem_cons] at h
      rcases h with he | hm
      · exact Or.inr he
      · exact Or.inl (List.mem_cons_of_mem _ hm)
    · rw [if_neg hk] at h
      simp only [List.mem_cons] at h
      rcases h with he | hm
      · exact Or.inl (by rw [he]; exact List.mem_cons_self ..)
      · rcases ih hm with h' | h'
        · exact Or.inl (List.mem_cons_of_mem _ h')
        · exact Or.inr h'

theorem pyDictFold_entry_inv :
    ∀ (l : List (Value × Config)) (d : List (Value × Config)),
    (∀ kv ∈ d, lookupC CONFIG_HASH_KEY kv.2 = some kv.1) →
    (∀ kv ∈ l, lookupC CONFIG_HASH_KEY kv.2 = some kv.1) →
    ∀ kv ∈ l.foldl (fun d kv => dictInsertKV kv.1 kv.2 d) d,
      lookupC CONFIG_HASH_KEY kv.2 = some kv.1
  | [], _, hd, _, kv, hm => hd kv hm
  | x :: rest, d, hd, hl, kv, hm => by
    simp only [List.foldl_cons] at hm
    refine pyDictFold_entry_inv rest _ ?_
      (fun kv' h => hl kv' (List.mem_cons_of_mem x h)) kv hm
    intro kv' hkv'
    rcases mem_dictInsertKV hkv' with h | h
    · exact hd kv' h
    · rw [h]
      exact hl x (List.mem_cons_self ..)

theorem dedupBatchWithHashing_eq (configs : List Config) :
    dedupBatchWithHashing configs =
      (pyDictFold (configs.map
        (fun c => (makeHash c, setKey CONFIG_HASH_KEY (makeHash c) c)))).map
        Prod.snd := by
  unfold dedupBatchWithHashing pyDictFold
  simp only [List.foldl_map, lookupC_setKey_self, Option.getD_some]

theorem lookupKV_pyDictFold' (l : List (Value × Config)) (k : Value) :
    lookupKV k (pyDictFold l) =
      match lastVal k l with
      | some v => some v
      | none => none := by
  have h := lookupKV_pyDictFold l [] k
  unfold pyDictFold
  exact h

/-- C7 (amended): with hashing enabled and duplicate detection not disabled,
within-batch duplicate removal keeps exactly one configuration per distinct
config hash, namely the hash-annotated LAST occurrence bearing that hash
(Python dict-overwrite semantics), not the first; queueing the same
configuration twice in one batch therefore still inserts it once. -/
theorem c7_dedup_keeps_last (configs : List Config) :
    (∀ c', c' ∈ dedupBatchWithHashing configs ↔
      ∃ h : Value,
        ((configs.filter (fun c => decide (makeHash c = h))).getLast?).map
          (fun c => setKey CONFIG_HASH_KEY (makeHash c) c) = some c') ∧
    ((dedupBatchWithHashing configs).map (lookupC CONFIG_HASH_KEY)).Nodup := by
  rw [dedupBatchWithHashing_eq]
  have hLinv : ∀ kv ∈ configs.map
      (fun c => (makeHash c, setKey CONFIG_HASH_KEY (makeHash c) c)),
      lookupC CONFIG_HASH_KEY kv.2 = some kv.1 := by
    intro kv hkv
    obtain ⟨c, _, rfl⟩ := List.mem_map.mp hkv
    simp [lookupC_setKey_self]
  have hnd : ((pyDictFold (configs.map
      (fun c => (makeHash c, setKey CONFIG_HASH_KEY (makeHash c) c)))).map
        Prod.fst).Nodup :=
    nodupKeys_pyDictFold _ [] (by simp)
  constructor
  · intro c'
    constructor
    · intro hc'
      obtain ⟨⟨k, v⟩, hmem, hv⟩ := List.mem_map.mp hc'
      subst hv
      have hlk := lookupKV_eq_some_of_mem hnd hmem
      have hfold := lookupKV_pyDictFold' (configs.map
        (fun c => (makeHash c, setKey CONFIG_HASH_KEY (makeHash c) c))) k
      rw [hlk] at hfold
      cases hlv : lastVal k (configs.map
          (fun c => (makeHash c, setKey CONFIG_HASH_KEY (makeHash c) c))) with
      | none =>
        rw [hlv] at hfold
        exact nomatch hfold
      | some w =>
        rw [hlv] at hfold
        obtain rfl : w = v := by injection hfold.symm
        refine ⟨k, ?_⟩
        rw [← lastVal_hashed]
        exact hlv
    · rintro ⟨h, hsome⟩
      have hlv : lastVal h (configs.map
          (fun c => (makeHash c, setKey CONFIG_HASH_KEY (makeHash c) c))) =
          some c' := by
        rw [lastVal_hashed]
        exact hsome
      have hfold := lookupKV_pyDictFold' (configs.map
        (fun c => (makeHash c, setKey CONFIG_HASH_KEY (makeHash c) c))) h
      rw [hlv] at hfold
      exact List.mem_map.mpr ⟨(h, c'), mem_of_lookupKV_eq_some hfold, rfl⟩
  · have hinv : ∀ kv ∈ pyDictFold (configs.map
        (fun c => (makeHash c, setKey CONFIG_HASH_KEY (makeHash c) c))),
        lookupC CONFIG_HASH_KEY kv.2 = some kv.1 :=
      pyDictFold_entry_inv _ [] (by simp) hLinv
    rw [List.map_map]
    have hmc : (pyDictFold (configs.map
        (fun c => (makeHash c, setKey CONFIG_HASH_KEY (makeHash c) c)))).map
          (lookupC CONFIG_HASH_KEY ∘ Prod.snd) =
        (pyDictFold (configs.map
        (fun c => (makeHash c, setKey CONFIG_HASH_KEY (makeHash c) c)))).map
          (fun kv => some kv.1) := by
      refine List.map_congr_left ?_
      intro kv hkv
      exact hinv kv hkv
    rw [hmc, show (fun (kv : Value × Config) => some kv.1) =
      (some ∘ Prod.fst) from rfl, ← List.map_map]
    exact hnd.map (Option.some_injective Value)

/-- C7 counterexample: two configurations equal by value but with different
key insertion order have the same config hash; within-batch duplicate
removal keeps the hash-annotated second (last) occurrence, not the first. -/
theorem c7_counterexample :
    makeHash (Config.cons "a".toList (.leaf (.lInt 1))
        (Config.cons "b".toList (.leaf (.lInt 2)) .nil)) =
      makeHash (Config.cons "b".toList (.leaf (.lInt 2))
        (Config.cons "a".toList (.leaf (.lInt 1)) .nil)) ∧
    dedupBatchWithHashing
        [Config.cons "a".toList (.leaf (.lInt 1))
          (Config.cons "b".toList (.leaf (.lInt 2)) .nil),
         Config.cons "b".toList (.leaf (.lInt 2))
          (Config.cons "a".toList (.leaf (.lInt 1)) .nil)] =
      [setKey CONFIG_HASH_KEY
        (makeHash (Config.cons "b".toList (.leaf (.lInt 2))
          (Config.cons "a".toList (.leaf (.lInt 1)) .nil)))
        (Config.cons "b".toList (.leaf (.lInt 2))
          (Config.cons "a".toList (.leaf (.lInt 1)) .nil))] ∧
    dedupBatchWithHashing
        [Config.cons "a".toList (.leaf (.lInt 1))
          (Config.cons "b".toList (.leaf (.lInt 2)) .nil),
         Config.cons "b".toList (.leaf (.lInt 2))
          (Config.cons "a".toList (.leaf (.lInt 1)) .nil)] ≠
      [setKey CONFIG_HASH_KEY
        (makeHash (Config.cons "a".toList (.leaf (.lInt 1))
          (Config.cons "b".toList (.leaf (.lInt 2)) .nil)))
        (Config.cons "a".toList (.leaf (.lInt 1))
          (Config.cons "b".toList (.leaf (.lInt 2)) .nil))] := by decide

/-! ## The lifecycle-observation shim (`seml/hydra.py`, `seml_observe_hydra`)

The decorator wraps a hydra main function and dispatches sacred observer
events around it.  Observers are external objects; an observer is modelled
by its identity, its `MongoObserver`-ness, and the set of events on which
its callback raises.  The run-record fetch and the event payloads other
than the interrupted status code are external I/O without bearing on any
claim and are not tracked. -/

/-- The four sacred observer events the shim dispatches. -/
inductive Event where
  | started | completed | interrupted | failed
deriving DecidableEq, Repr

/-- A sacred observer as the shim sees it: an identity, whether it is a
`MongoObserver` (the `isinstance` check), and the events on which its
callback raises. -/
structure Observer where
  id : Nat
  isMongo : Bool
  raiseOn : List Event
deriving DecidableEq, Repr

/-- An entry of the `failed_observers` list — or the whole observer list:
the source's skip guard `if observers in failed_observers:` compares the
observer LIST against the recorded failed observers, so both kinds live in
one type to express the comparison; a list never equals a single
observer. -/
inductive ObsOrList where
  | obs : Observer → ObsOrList
  | lst : List Observer → ObsOrList
deriving DecidableEq, Repr

/-- One dispatched callback: observer identity, event, and (for
`interrupted`) the status payload. -/
structure CallEntry where
  obsId : Nat
  ev : Event
  status : Option Key
deriving DecidableEq, Repr

/-- State threaded through observer dispatch: `failed_observers`, the
warnings logged by the catch wrapper, and the callback invocations made. -/
structure DispatchState where
  failedObservers : List ObsOrList
  obsWarnings : List (Nat × Event)
  calls : List CallEntry
deriving DecidableEq, Repr

/-- `observer_call_catch_exceptions` (seml/hydra.py lines 72-82): return
early if `observers in failed_observers` (the source tests the observer
LIST, not the single observer); otherwise invoke the callback, and when it
raises, append the observer to `failed_observers` and log a warning. -/
def observerCallCatchExceptions (observers : List Observer)
    (s : DispatchState) (ob : Observer) (ev : Event) (status : Option Key) :
    DispatchState :=
  if decide (ObsOrList.lst observers ∈ s.failedObservers) then s
  else if ob.raiseOn.contains ev then
    ⟨s.failedObservers ++ [.obs ob], s.obsWarnings ++ [(ob.id, ev)],
     s.calls ++ [⟨ob.id, ev, status⟩]⟩
  else
    ⟨s.failedObservers, s.obsWarnings, s.calls ++ [⟨ob.id, ev, status⟩]⟩

/-- Modelled from the spec: the fixed interrupted-status code
`States.INTERRUPTED[0]` — `SETTINGS.STATES` lives in the settings module,
which is not among the sources. -/
def INTERRUPTED_STATUS : Key := "INTERRUPTED".toList

/-- The `seml` subconfiguration of the hydra config as the shim reads it. -/
structure SemlSub where
  overwrite : Option Int
  dbCollection : Key
deriving DecidableEq, Repr

/-- Presence of the `seml` subconfiguration in `cfg`: key absent, value
`None`, or present. -/
inductive SemlField where
  | absent
  | null
  | present : SemlSub → SemlField
deriving DecidableEq, Repr

/-- The guard `'seml' not in cfg or cfg.seml is None or cfg.seml.overwrite
is None` (seml/hydra.py line 53): the run id when observation happens. -/
def semlRunId : SemlField → Option Int
  | .absent => none
  | .null => none
  | .present sub => sub.overwrite

/-- The outcome of invoking the wrapped experiment function: normal return,
`KeyboardInterrupt`, or another exception (identified by a number). -/
inductive FnOutcome (α : Type) where
  | ret : α → FnOutcome α
  | interrupt : FnOutcome α
  | exc : Nat → FnOutcome α
deriving DecidableEq, Repr

/-- What one invocation of the decorated function does: warnings logged by
the shim itself, the dispatch state, the observers joined (in order), and
the outcome that reaches the caller (return value or re-raised
exception). -/
structure ShimResult (α : Type) where
  semlWarnings : Nat
  dispatch : DispatchState
  joins : List Nat
  outcome : FnOutcome α
deriving DecidableEq, Repr

/-- Lines 59-64: default the observer list, then prepend a fresh MongoDB
observer (`[create_mongodb_observer(...)] + observers`) unless an observer
already `isinstance`-matches `MongoObserver`. -/
def effectiveObservers (mkMongo : Observer)
    (observers0 : Option (List Observer)) : List Observer :=
  let obs1 := observers0.getD []
  if obs1.any (fun o => o.isMongo) then obs1 else mkMongo :: obs1

/-- The decorator body of `seml_observe_hydra` (seml/hydra.py lines 52-137):
on a missing/unset `seml` run context, log one warning and call the wrapped
function directly; otherwise ensure a MongoDB observer (built by the
external constructor `create_mongodb_observer`, passed as `mkMongo`),
dispatch `started` to every observer, run the wrapped function (its
behaviour is the parameter `fnOutcome`), dispatch `completed` /
`interrupted` (with the fixed status code) / `failed` according to the
outcome, join every observer in the `finally` block, and propagate the
outcome. -/
def semlObserveHydra {α : Type} (mkMongo : Observer)
    (observers0 : Option (List Observer)) (seml : SemlField)
    (fnOutcome : FnOutcome α) : ShimResult α :=
  match semlRunId seml with
  | none =>
    { semlWarnings := 1, dispatch := ⟨[], [], []⟩, joins := [],
      outcome := fnOutcome }
  | some _ =>
    let observers := effectiveObservers mkMongo observers0
    let s1 := observers.foldl (fun s ob =>
      observerCallCatchExceptions observers s ob .started none) ⟨[], [], []⟩
    let s2 :=
      match fnOutcome with
      | .ret _ => observers.foldl (fun s ob =>
          observerCallCatchExceptions observers s ob .completed none) s1
      | .interrupt => observers.foldl (fun s ob =>
          observerCallCatchExceptions observers s ob .interrupted
            (some INTERRUPTED_STATUS)) s1
      | .exc _ => observers.foldl (fun s ob =>
          observerCallCatchExceptions observers s ob .failed none) s1
    { semlWarnings := 0, dispatch := s2,
      joins := observers.map (fun o => o.id), outcome := fnOutcome }

/-- The skip guard can never fire: `failed_observers` only ever holds single
observers, and the observer list compares unequal to each of them.  One
event wave therefore calls every observer in list order, and the raisers are
appended to `failed_observers` and logged. -/
theorem dispatch_wave (observers : List Observer) (ev : Event)
    (status : Option Key) :
    ∀ (l : List Observer) (s : DispatchState),
    (∀ x ∈ s.failedObservers, ∃ o, x = ObsOrList.obs o) →
    (l.foldl (fun s ob =>
        observerCallCatchExceptions observers s ob ev status) s).calls =
      s.calls ++ l.map (fun ob => ⟨ob.id, ev, status⟩) ∧
    (∀ x ∈ (l.foldl (fun s ob =>
        observerCallCatchExceptions observers s ob ev status)
        s).failedObservers, ∃ o, x = ObsOrList.obs o) ∧
    (l.foldl (fun s ob =>
        observerCallCatchExceptions observers s ob ev status)
        s).obsWarnings =
      s.obsWarnings ++ (l.filter (fun ob => ob.raiseOn.contains ev)).map
        (fun ob => (ob.id, ev))
  | [], s, hinv => ⟨by simp, hinv, by simp⟩
  | ob :: l', s, hinv => by
    have hguard : ¬ (ObsOrList.lst observers ∈ s.failedObservers) := by
      intro hmem
      obtain ⟨o, ho⟩ := hinv _ hmem
      exact nomatch ho
    simp only [List.foldl_cons]
    by_cases hr : ob.raiseOn.contains ev
    · have hstep : observerCallCatchExceptions observers s ob ev status =
          ⟨s.failedObservers ++ [ObsOrList.obs ob],
           s.obsWarnings ++ [(ob.id, ev)],
           s.calls ++ [⟨ob.id, ev, status⟩]⟩ := by
        unfold observerCallCatchExceptions
        rw [if_neg (by simpa using hguard), if_pos hr]
      rw [hstep]
      have hinv' : ∀ x ∈ (⟨s.failedObservers ++ [ObsOrList.obs ob],
          s.obsWarnings ++ [(ob.id, ev)],
          s.calls ++ [⟨ob.id, ev, status⟩]⟩ : DispatchState).failedObservers,
          ∃ o, x = ObsOrList.obs o := by
        intro x hx
        rcases List.mem_append.mp hx with h | h
        · exact hinv x h
        · exact ⟨ob, List.mem_singleton.mp h⟩
      obtain ⟨h1, h2, h3⟩ := dispatch_wave observers ev status l' _ hinv'
      refine ⟨?_, h2, ?_⟩
      · rw [h1]
        simp
      · rw [h3]
        have hr' : ev ∈ ob.raiseOn := by simpa using hr
        simp [List.filter_cons, hr']
    · have hstep : observerCallCatchExceptions observers s ob ev status =
          ⟨s.failedObservers, s.obsWarnings,
           s.calls ++ [⟨ob.id, ev, status⟩]⟩ := by
        unfold observerCallCatchExceptions
        rw [if_neg (by simpa using hguard), if_neg hr]
      rw [hstep]
      obtain ⟨h1, h2, h3⟩ := dispatch_wave observers ev status l'
        ⟨s.failedObservers, s.obsWarnings, s.calls ++ [⟨ob.id, ev, status⟩]⟩
        hinv
      refine ⟨?_, h2, ?_⟩
      · rw [h1]
        simp
      · rw [h3]
        have hr' : ¬ (ev ∈ ob.raiseOn) := by simpa using hr
        simp [List.filter_cons, hr']

/-- Full characterization of one shim invocation with a valid run context:
the outcome propagates, no shim warning is logged, every observer is joined
in order, and the calls are one `started` wave followed by one
`completed`/`interrupted`/`failed` wave over all observers in list order. -/
theorem semlObserveHydra_valid {α : Type} (mkMongo : Observer)
    (observers0 : Option (List Observer)) (seml : SemlField) (i : Int)
    (hid : semlRunId seml = some i) (fnOutcome : FnOutcome α) :
    (semlObserveHydra mkMongo observers0 seml fnOutcome).outcome = fnOutcome ∧
    (semlObserveHydra mkMongo observers0 seml fnOutcome).semlWarnings = 0 ∧
    (semlObserveHydra mkMongo observers0 seml fnOutcome).joins =
      (effectiveObservers mkMongo observers0).map (fun o => o.id) ∧
    (semlObserveHydra mkMongo observers0 seml fnOutcome).dispatch.calls =
      (effectiveObservers mkMongo observers0).map
        (fun o => ⟨o.id, .started, none⟩) ++
      (match fnOutcome with
       | .ret _ => (effectiveObservers mkMongo observers0).map
            (fun o => ⟨o.id, .completed, none⟩)
       | .interrupt => (effectiveObservers mkMongo observers0).map
            (fun o => ⟨o.id, .interrupted, some INTERRUPTED_STATUS⟩)
       | .exc _ => (effectiveObservers mkMongo observers0).map
            (fun o => ⟨o.id, .failed, none⟩)) := by
  obtain ⟨hc1, hi1, _⟩ := dispatch_wave (effectiveObservers mkMongo observers0)
    .started none (effectiveObservers mkMongo observers0) ⟨[], [], []⟩
    (by intro x hx; exact absurd hx (List.not_mem_nil x))
  cases fnOutcome with
  | ret v =>
    obtain ⟨hc2, _, _⟩ := dispatch_wave (effectiveObservers mkMongo observers0)
      .completed none (effectiveObservers mkMongo observers0) _ hi1
    simp only [semlObserveHydra, hid]
    refine ⟨trivial, trivial, trivial, ?_⟩
    rw [hc2, hc1]
    simp
  | interrupt =>
    obtain ⟨hc2, _, _⟩ := dispatch_wave (effectiveObservers mkMongo observers0)
      .interrupted (some INTERRUPTED_STATUS)
      (effectiveObservers mkMongo observers0) _ hi1
    simp only [semlObserveHydra, hid]
    refine ⟨trivial, trivial, trivial, ?_⟩
    rw [hc2, hc1]
    simp
  | exc e =>
    obtain ⟨hc2, _, _⟩ := dispatch_wave (effectiveObservers mkMongo observers0)
      .failed none (effectiveObservers mkMongo observers0) _ hi1
    simp only [semlObserveHydra, hid]
    refine ⟨trivial, trivial, trivial, ?_⟩
    rw [hc2, hc1]
    simp

/-- C6: for every invocation of the shim with a valid run context, the
wrapped experiment function's own outcome propagates to the caller
unchanged: on normal return the shim returns exactly the wrapped function's
return value; on a cooperative interrupt the same interrupt is re-raised
after every observer is sent the `interrupted` event carrying the fixed
interrupted-status code; on any other exception the original exception is
re-raised after every observer is sent the `failed` event.  Observer
failures are caught inside the dispatch wrapper (logged as warnings) and
never substituted for the real outcome. -/
theorem c6_outcome_propagation {α : Type} (mkMongo : Observer)
    (observers0 : Option (List Observer)) (seml : SemlField) (i : Int)
    (hid : semlRunId seml = some i) :
    (∀ v : α,
      (semlObserveHydra mkMongo observers0 seml (.ret v)).outcome = .ret v) ∧
    ((semlObserveHydra mkMongo observers0 seml
        (.interrupt : FnOutcome α)).outcome = .interrupt ∧
      (semlObserveHydra mkMongo observers0 seml
        (.interrupt : FnOutcome α)).dispatch.calls =
        (effectiveObservers mkMongo observers0).map
          (fun o => ⟨o.id, .started, none⟩) ++
        (effectiveObservers mkMongo observers0).map
          (fun o => ⟨o.id, .interrupted, some INTERRUPTED_STATUS⟩)) ∧
    (∀ e : Nat,
      (semlObserveHydra mkMongo observers0 seml
        (.exc e : FnOutcome α)).outcome = .exc e ∧
      (semlObserveHydra mkMongo observers0 seml
        (.exc e : FnOutcome α)).dispatch.calls =
        (effectiveObservers mkMongo observers0).map
          (fun o => ⟨o.id, .started, none⟩) ++
        (effectiveObservers mkMongo observers0).map
          (fun o => ⟨o.id, .failed, none⟩)) := by
  refine ⟨fun v => ?_, ⟨?_, ?_⟩, fun e => ⟨?_, ?_⟩⟩
  · exact (semlObserveHydra_valid mkMongo observers0 seml i hid (.ret v)).1
  · exact (semlObserveHydra_valid mkMongo observers0 seml i hid .interrupt).1
  · exact (semlObserveHydra_valid mkMongo observers0 seml i hid .interrupt).2.2.2
  · exact (semlObserveHydra_valid mkMongo observers0 seml i hid (.exc e)).1
  · exact (semlObserveHydra_valid mkMongo observers0 seml i hid (.exc e)).2.2.2

theorem c6_outcome_propagation_witness :
    semlRunId (.present ⟨some 5, "col".toList⟩) = some 5 ∧
    ((∀ v : Nat,
      (semlObserveHydra ⟨0, true, []⟩ (some [⟨1, false, [Event.completed]⟩])
        (.present ⟨some 5, "col".toList⟩) (.ret v)).outcome = .ret v) ∧
    ((semlObserveHydra ⟨0, true, []⟩ (some [⟨1, false, [Event.completed]⟩])
        (.present ⟨some 5, "col".toList⟩)
        (.interrupt : FnOutcome Nat)).outcome = .interrupt ∧
      (semlObserveHydra ⟨0, true, []⟩ (some [⟨1, false, [Event.completed]⟩])
        (.present ⟨some 5, "col".toList⟩)
        (.interrupt : FnOutcome Nat)).dispatch.calls =
        (effectiveObservers ⟨0, true, []⟩
          (some [⟨1, false, [Event.completed]⟩])).map
          (fun o => ⟨o.id, .started, none⟩) ++
        (effectiveObservers ⟨0, true, []⟩
          (some [⟨1, false, [Event.completed]⟩])).map
          (fun o => ⟨o.id, .interrupted, some INTERRUPTED_STATUS⟩)) ∧
    (∀ e : Nat,
      (semlObserveHydra ⟨0, true, []⟩ (some [⟨1, false, [Event.completed]⟩])
        (.present ⟨some 5, "col".toList⟩)
        (.exc e : FnOutcome Nat)).outcome = .exc e ∧
      (semlObserveHydra ⟨0, true, []⟩ (some [⟨1, false, [Event.completed]⟩])
        (.present ⟨some 5, "col".toList⟩)
        (.exc e : FnOutcome Nat)).dispatch.calls =
        (effectiveObservers ⟨0, true, []⟩
          (some [⟨1, false, [Event.completed]⟩])).map
          (fun o => ⟨o.id, .started, none⟩) ++
        (effectiveObservers ⟨0, true, []⟩
          (some [⟨1, false, [Event.completed]⟩])).map
          (fun o => ⟨o.id, .failed, none⟩))) :=
  ⟨by decide,
    c6_outcome_propagation ⟨0, true, []⟩ (some [⟨1, false, [Event.completed]⟩])
      (.present ⟨some 5, "col".toList⟩) 5 (by decide)⟩

/-- C9: when the `seml` substructure is absent from the configuration, or is
`None`, or its run-identifier field `overwrite` is unset, the shim logs one
warning, dispatches no events and joins no observer, and returns the wrapped
function's return value unchanged. -/
theorem c9_missing_run_context {α : Type} (mkMongo : Observer)
    (observers0 : Option (List Observer)) (seml : SemlField)
    (hmiss : semlRunId seml = none) (v : α) :
    semlObserveHydra mkMongo observers0 seml (.ret v) =
      ⟨1, ⟨[], [], []⟩, [], .ret v⟩ := by
  simp [semlObserveHydra, hmiss]

theorem c9_missing_run_context_witness :
    (semlObserveHydra ⟨0, true, []⟩ (some [⟨1, false, []⟩]) .absent
        (.ret (7 : Nat)) = ⟨1, ⟨[], [], []⟩, [], .ret 7⟩) ∧
    (semlObserveHydra ⟨0, true, []⟩ (some [⟨1, false, []⟩]) .null
        (.ret (7 : Nat)) = ⟨1, ⟨[], [], []⟩, [], .ret 7⟩) ∧
    (semlObserveHydra ⟨0, true, []⟩ (some [⟨1, false, []⟩])
        (.present ⟨none, "col".toList⟩)
        (.ret (7 : Nat)) = ⟨1, ⟨[], [], []⟩, [], .ret 7⟩) :=
  ⟨c9_missing_run_context ⟨0, true, []⟩ (some [⟨1, false, []⟩]) .absent rfl 7,
   c9_missing_run_context ⟨0, true, []⟩ (some [⟨1, false, []⟩]) .null rfl 7,
   c9_missing_run_context ⟨0, true, []⟩ (some [⟨1, false, []⟩])
     (.present ⟨none, "col".toList⟩) rfl 7⟩

/-- C4 (amended): when none of the already-registered observers is a
MongoObserver, the shim PREPENDS the default observer, and dispatch order
for every single event is list order — so the added default observer
receives each event before every caller-supplied observer (not after, as
appending would give). -/
theorem c4_default_observer_prepended {α : Type} (mkMongo : Observer)
    (obs0 : List Observer) (seml : SemlField) (i : Int)
    (hid : semlRunId seml = some i)
    (hnm : obs0.any (fun o => o.isMongo) = false) (v : α) :
    effectiveObservers mkMongo (some obs0) = mkMongo :: obs0 ∧
    (semlObserveHydra mkMongo (some obs0) seml (.ret v)).dispatch.calls =
      (mkMongo :: obs0).map (fun o => ⟨o.id, .started, none⟩) ++
      (mkMongo :: obs0).map (fun o => ⟨o.id, .completed, none⟩) := by
  have heff : effectiveObservers mkMongo (some obs0) = mkMongo :: obs0 := by
    simp [effectiveObservers, hnm]
  refine ⟨heff, ?_⟩
  have h := (semlObserveHydra_valid mkMongo (some obs0) seml i hid
    (.ret v)).2.2.2
  rw [h, heff]

theorem c4_default_observer_prepended_witness :
    (semlRunId (.present ⟨some 5, "col".toList⟩) = some 5 ∧
      [(⟨1, false, []⟩ : Observer)].any (fun o => o.isMongo) = false) ∧
    (effectiveObservers ⟨0, true, []⟩ (some [⟨1, false, []⟩]) =
      [⟨0, true, []⟩, ⟨1, false, []⟩] ∧
    (semlObserveHydra ⟨0, true, []⟩ (some [⟨1, false, []⟩])
        (.present ⟨some 5, "col".toList⟩) (.ret (3 : Nat))).dispatch.calls =
      ([⟨0, true, []⟩, ⟨1, false, []⟩] : List Observer).map
        (fun o => ⟨o.id, .started, none⟩) ++
      ([⟨0, true, []⟩, ⟨1, false, []⟩] : List Observer).map
        (fun o => ⟨o.id, .completed, none⟩)) :=
  ⟨⟨by decide, by decide⟩,
    c4_default_observer_prepended ⟨0, true, []⟩ [⟨1, false, []⟩]
      (.present ⟨some 5, "col".toList⟩) 5 (by decide) (by decide) 3⟩

/-- C4 counterexample: with one caller-supplied non-Mongo observer (id 1)
and the default observer (id 0), the first `started` call goes to the
default observer, not the caller-supplied one: the default observer is
prepended, so the caller-supplied observers do NOT receive events first. -/
theorem c4_counterexample :
    (semlObserveHydra ⟨0, true, []⟩ (some [⟨1, false, []⟩])
        (.present ⟨some 5, "col".toList⟩) (.ret (0 : Nat))).dispatch.calls =
      [⟨0, .started, none⟩, ⟨1, .started, none⟩,
       ⟨0, .completed, none⟩, ⟨1, .completed, none⟩] ∧
    (semlObserveHydra ⟨0, true, []⟩ (some [⟨1, false, []⟩])
        (.present ⟨some 5, "col".toList⟩) (.ret (0 : Nat))).dispatch.calls ≠
      [⟨1, .started, none⟩, ⟨0, .started, none⟩,
       ⟨1, .completed, none⟩, ⟨0, .completed, none⟩] := by decide

/-- C1, the code evaluated at the failing input: two registered observers,
the first a MongoObserver raising on `started` (so no default observer is
added).  The raising observer is appended to `failed_observers` and a
warning is logged, yet it still receives the `completed` event — the skip
guard `observers in failed_observers` compares the observer LIST against
the recorded failed observers and never fires.  Both observers are joined
and the return value propagates. -/
theorem c1_failed_observer_not_skipped :
    semlObserveHydra ⟨2, true, []⟩
        (some [⟨0, true, [Event.started]⟩, ⟨1, false, []⟩])
        (.present ⟨some 5, "col".toList⟩) (.ret (7 : Nat)) =
      ⟨0,
       ⟨[.obs ⟨0, true, [Event.started]⟩], [(0, .started)],
        [⟨0, .started, none⟩, ⟨1, .started, none⟩,
         ⟨0, .completed, none⟩, ⟨1, .completed, none⟩]⟩,
       [0, 1], .ret 7⟩ ∧
    (⟨0, .completed, none⟩ : CallEntry) ∈
      (semlObserveHydra ⟨2, true, []⟩
        (some [⟨0, true, [Event.started]⟩, ⟨1, false, []⟩])
        (.present ⟨some 5, "col".toList⟩)
        (.ret (7 : Nat))).dispatch.calls := by decide

/-! ## Entry-point argument discovery
(`detect_hydra_arguments_from_main_decorator`, seml/hydra/config.py) -/

/-- The binding of `hydra.main` visible to the process. -/
inductive HydraMainBinding where
  | original
  | sentinel
deriving DecidableEq, Repr

/-- What executing the target script does once `hydra.main` has been
replaced by the sentinel: reach the decoration call (with the three detected
arguments), run to completion without ever calling it, or die earlier with
an exception of its own. -/
inductive ScriptBehavior where
  | callsMain : Option Key → Option Key → Option Key → ScriptBehavior
  | noMainCall : ScriptBehavior
  | raisesOther : Nat → ScriptBehavior
deriving DecidableEq, Repr

/-- Errors the discovery call can raise: the `RuntimeError` "Running {path}
did not call hydra.main", a `ConfigError` mismatch with a caller-supplied
expected value, or the script's own exception. -/
inductive DetectError where
  | noEntryPoint
  | configMismatch
  | scriptError : Nat → DetectError
deriving DecidableEq, Repr

/-- One expected-vs-detected check (lines 62-78): a missing expectation
adopts the detected value, a matching one is kept, a differing one raises
the `ConfigError`. -/
def checkArg (expected detected : Option Key) :
    Except DetectError (Option Key) :=
  match expected with
  | none => .ok detected
  | some e => if some e = detected then .ok (some e)
              else .error .configMismatch

/-- `detect_hydra_arguments_from_main_decorator` (seml/hydra/config.py lines
27-80): back up `hydra.main`, execute the script with the decoration call
replaced by a sentinel that raises its three arguments, catch the sentinel
exception, restore `hydra.main` (line 60), then check the caller-supplied
expectations — `config_name`, then `config_path`, then `version_base`.
Only the sentinel exception is caught: when the script never reaches the
decoration call, the `RuntimeError` of line 57 propagates (and a script
exception propagates likewise), skipping the restore — there is no
`finally`.  The result pairs the binding of `hydra.main` after the call
with the returned triple or raised error. -/
def detectHydraArguments (script : ScriptBehavior)
    (configPath configName versionBase : Option Key) :
    HydraMainBinding ×
      Except DetectError (Option Key × Option Key × Option Key) :=
  match script with
  | .noMainCall => (.sentinel, .error .noEntryPoint)
  | .raisesOther e => (.sentinel, .error (.scriptError e))
  | .callsMain cpD cnD vbD =>
    (.original,
      match checkArg configName cnD with
      | .error e => .error e
      | .ok cn =>
        match checkArg configPath cpD with
        | .error e => .error e
        | .ok cp =>
          match checkArg versionBase vbD with
          | .error e => .error e
          | .ok vb => .ok (cp, cn, vb))

/-- C5 (amended): the original `hydra.main` binding is restored exactly when
the script reaches the decoration call — including when an expected-value
check then fails with a configuration-mismatch error (the restore precedes
the checks); discovery with no expectations returns the detected triple.
When the script never reaches the decoration call, the call fails with the
"did not call hydra.main" error and the sentinel binding is left in place
(the restore is skipped; likewise when the script raises on its own). -/
theorem c5_restore_only_on_decoration_call
    (configPath configName versionBase : Option Key) :
    (∀ cpD cnD vbD,
      (detectHydraArguments (.callsMain cpD cnD vbD)
        configPath configName versionBase).1 = .original) ∧
    (∀ cpD cnD vbD,
      detectHydraArguments (.callsMain cpD cnD vbD) none none none =
        (.original, .ok (cpD, cnD, vbD))) ∧
    (∀ cpD cnD vbD cn, some cn ≠ cnD →
      detectHydraArguments (.callsMain cpD cnD vbD)
        configPath (some cn) versionBase =
        (.original, .error .configMismatch)) ∧
    (detectHydraArguments .noMainCall configPath configName versionBase =
      (.sentinel, .error .noEntryPoint)) ∧
    (∀ e, detectHydraArguments (.raisesOther e)
        configPath configName versionBase =
      (.sentinel, .error (.scriptError e))) := by
  refine ⟨fun cpD cnD vbD => rfl, fun cpD cnD vbD => rfl,
    fun cpD cnD vbD cn hne => ?_, rfl, fun e => rfl⟩
  simp only [detectHydraArguments, checkArg, if_neg hne]

theorem c5_restore_only_on_decoration_call_witness :
    (some "base".toList ≠ (some "other".toList : Option Key)) ∧
    ((∀ cpD cnD vbD,
      (detectHydraArguments (.callsMain cpD cnD vbD)
        (some "conf".toList) none none).1 = .original) ∧
    (∀ cpD cnD vbD,
      detectHydraArguments (.callsMain cpD cnD vbD) none none none =
        (.original, .ok (cpD, cnD, vbD))) ∧
    (∀ cpD cnD vbD cn, some cn ≠ cnD →
      detectHydraArguments (.callsMain cpD cnD vbD)
        (some "conf".toList) (some cn) none =
        (.original, .error .configMismatch)) ∧
    (detectHydraArguments .noMainCall (some "conf".toList) none none =
      (.sentinel, .error .noEntryPoint)) ∧
    (∀ e, detectHydraArguments (.raisesOther e)
        (some "conf".toList) none none =
      (.sentinel, .error (.scriptError e)))) :=
  ⟨by decide,
    c5_restore_only_on_decoration_call (some "conf".toList) none none⟩

/-- C5 counterexample: when the target script never reaches the decoration
call, the call fails with the "did not call hydra.main" error as claimed,
but the original binding is NOT restored: `hydra.main` is left bound to the
sentinel. -/
theorem c5_counterexample :
    detectHydraArguments .noMainCall none none none =
      (.sentinel, .error .noEntryPoint) ∧
    (detectHydraArguments .noMainCall none none none).1 ≠ .original := by
  decide

theorem c10_filter_experiments_witness :
    filterExperiments (fun _ => none)
        [Config.cons CONFIG_HASH_KEY (.leaf (.lInt 7))
          (Config.cons "x".toList (.leaf (.lInt 2)) .nil)] =
      [Config.cons "x".toList (.leaf (.lInt 2)) .nil] ∧
    (filterExperiments (fun _ => none)
        [Config.cons CONFIG_HASH_KEY (.leaf (.lInt 7))
          (Config.cons "x".toList (.leaf (.lInt 2)) .nil)] =
      [Config.cons CONFIG_HASH_KEY (.leaf (.lInt 7))
          (Config.cons "x".toList (.leaf (.lInt 2)) .nil)].filterMap
        (filterExperimentsStep (fun _ => none)) ∧
    ∀ c' ∈ filterExperiments (fun _ => none)
        [Config.cons CONFIG_HASH_KEY (.leaf (.lInt 7))
          (Config.cons "x".toList (.leaf (.lInt 2)) .nil)],
      lookupC CONFIG_HASH_KEY c' = none) :=
  ⟨by decide,
    c10_filter_experiments (fun _ => none)
      [Config.cons CONFIG_HASH_KEY (.leaf (.lInt 7))
        (Config.cons "x".toList (.leaf (.lInt 2)) .nil)] (by decide)⟩

end Seml
